import Mathlib

/-!
Shallow embedding of `src/poly.rs` (the `bored-algebra` polynomial core) and a
verification of the frozen claims about it.

The Rust struct `Polynomial<T> { coeffs: Rc<Vec<T>>, deg: u64 }` is embedded as
a Lean structure holding a plain list and a natural number; `Rc` sharing is
semantically transparent and `u64`/`usize` values are modelled as `Nat`
(degrees are bounded by vector length, so no wrap-around is reachable).

Operations whose bodies the source implements (`From<Vec<T>>`, `PartialEq`,
`Zero`, `One`, `Default`, `new`, `compare_deg`, `Sub` in terms of `+`/`-`) are
translated directly.  Operations whose bodies are `todo!()` stubs in the source
(`add_pad_second`, `Neg::neg`, `Mul::mul`, `Div::div`, `Rem::rem`) are modelled
from the specification (and, where available, from the commented-out bodies the
source retains); each such definition is marked `Modelled from the spec:` in
its doc comment.
-/

set_option linter.unusedVariables false
set_option linter.unusedSectionVars false

namespace BA

/-- Embeds the Rust struct `Polynomial<T>`: `coeffs` is the backing coefficient
vector (index equals exponent) and `deg` the cached degree. -/
structure Polynomial (T : Type) where
  coeffs : List T
  deg : Nat
  deriving DecidableEq

variable {T : Type}

/-- Embeds `Default for Polynomial<T>`: empty coefficient vector, degree `0`. -/
def defaultPoly : Polynomial T :=
  { coeffs := [], deg := 0 }

/-- Embeds `Polynomial::new`, which just calls `Self::default()`. -/
def new : Polynomial T :=
  defaultPoly

/-- Embeds `Iterator::rposition` as used by `From<Vec<T>>::from`: the index
(counted from the front) of the last element satisfying the predicate. -/
def rposition (p : T → Bool) : List T → Option Nat
  | [] => none
  | x :: xs =>
    match rposition p xs with
    | some i => some (i + 1)
    | none => if p x then some 0 else none

/-- Embeds `From<Vec<T>> for Polynomial<T>`: an empty vector yields the default
(zero) polynomial; otherwise the degree is the last index holding a coefficient
different from `T::zero()` (via `rposition`), defaulting to `0`, and the input
vector is retained untruncated as backing storage. -/
def fromList [Zero T] [DecidableEq T] (vec : List T) : Polynomial T :=
  if vec = [] then defaultPoly
  else
    { coeffs := vec
      deg := (rposition (fun coeff => decide (coeff ≠ 0)) vec).getD 0 }

/-- Embeds `PartialEq::eq` for `Polynomial<T>`: the cached degrees must be
equal, and the first `deg + 1` `(index, coefficient)` pairs of the two backing
vectors (`iter().enumerate().take(deg + 1)`) must compare equal. -/
def eq [DecidableEq T] (a b : Polynomial T) : Bool :=
  if a.deg = b.deg then
    decide (a.coeffs.enum.take (a.deg + 1) = b.coeffs.enum.take (a.deg + 1))
  else false

/-- Embeds `PartialEq::ne`, defined in the source as the negation of `eq`. -/
def ne [DecidableEq T] (a b : Polynomial T) : Bool :=
  !(eq a b)

/-- Embeds `Polynomial::compare_deg`: `true` iff the first polynomial has
higher or equal degree. -/
def compare_deg (a b : Polynomial T) : Bool :=
  if a.deg ≥ b.deg then true else false

/-- Embeds `Zero::zero` for `Polynomial<T>`: `Self::from(vec![T::zero()])`. -/
def zero [Zero T] [DecidableEq T] : Polynomial T :=
  fromList [0]

/-- Embeds `Zero::is_zero`: `true` iff `*self == Self::zero()`. -/
def is_zero [Zero T] [DecidableEq T] (a : Polynomial T) : Bool :=
  if eq a zero = true then true else false

/-- Embeds `One::one` for `Polynomial<T>`: `Self::from(vec![T::one()])`. -/
def one [One T] [Zero T] [DecidableEq T] : Polynomial T :=
  fromList [1]

/-- Embeds `One::is_one`: `true` iff `*self == Self::one()`. -/
def is_one [One T] [Zero T] [DecidableEq T] (a : Polynomial T) : Bool :=
  if eq a one = true then true else false

/-- Modelled from the spec: `Polynomial::add_pad_second` is a `todo!()` stub in
the source.  Per spec §4.5 the first operand is the one of higher (or equal)
degree; the sum is taken coefficient-wise up to that degree, the second operand
implicitly zero-extended, and the result re-normalized through `from`. -/
def add_pad_second [Add T] [Zero T] [DecidableEq T] (a rhs : Polynomial T) :
    Polynomial T :=
  fromList ((List.range (a.deg + 1)).map fun i =>
    a.coeffs.getD i 0 + rhs.coeffs.getD i 0)

/-- Embeds `Add::add`: dispatches on `compare_deg` so that `add_pad_second`
receives the operand of higher or equal degree first. -/
def add [Add T] [Zero T] [DecidableEq T] (a rhs : Polynomial T) : Polynomial T :=
  if compare_deg a rhs then add_pad_second a rhs else add_pad_second rhs a

/-- Modelled from the spec: `Neg::neg` is a `todo!()` stub; the source retains a
commented-out body negating every backing coefficient and re-normalizing with
`from`, which spec §4.5 adopts. -/
def neg [Neg T] [Zero T] [DecidableEq T] (a : Polynomial T) : Polynomial T :=
  fromList (a.coeffs.map fun elem => -elem)

/-- Embeds `Sub::sub`, implemented in the source as `self + (-rhs)`. -/
def sub [Add T] [Neg T] [Zero T] [DecidableEq T] (a rhs : Polynomial T) :
    Polynomial T :=
  add a (neg rhs)

/-- Modelled from the spec: `Mul::mul` is a `todo!()` stub; spec §4.6 (matching
the commented-out convolution body retained in the source) sets the result
coefficient at `k ∈ [0, n + m]` to the sum of `a_i * b_(k-i)` over `i ≤ k`,
skipping (not multiplying) any term with `i > n` or `k - i > m`, and
re-normalizes through `from`. -/
def mul [Mul T] [Add T] [Zero T] [DecidableEq T] (a rhs : Polynomial T) :
    Polynomial T :=
  let n := a.deg
  let m := rhs.deg
  fromList ((List.range (n + m + 1)).map fun k =>
    (List.range (k + 1)).foldl
      (fun acc i =>
        if i > n ∨ k - i > m then acc
        else acc + a.coeffs.getD i 0 * rhs.coeffs.getD (k - i) 0)
      0)

/-- Leading coefficient (spec glossary): the backing coefficient at index
`deg`, or `zero(T)` when the backing storage is empty.  Used by the modelled
division. -/
def lc [Zero T] (p : Polynomial T) : T :=
  p.coeffs.getD p.deg 0

/-- The monomial `c * x^k`, built through the source's `from` constructor. -/
def monomial [Zero T] [DecidableEq T] (k : Nat) (c : T) : Polynomial T :=
  fromList (List.replicate k 0 ++ [c])

/-- Modelled from the spec: the long-division loop of §4.7.  While the
remainder is nonzero and its degree is at least `deg b`, subtract
`(lc r / lc b) * x^(deg r - deg b) * b` from it, accumulating that monomial
into the quotient.  `fuel` bounds the iteration count (the spec notes at most
`deg a - deg b + 1` rounds are needed). -/
def divmodAux [Field T] [DecidableEq T] (b : Polynomial T) :
    Nat → Polynomial T → Polynomial T → Polynomial T × Polynomial T
  | 0, q, r => (q, r)
  | fuel + 1, q, r =>
    if is_zero r = true ∨ r.deg < b.deg then (q, r)
    else
      let t := monomial (r.deg - b.deg) (lc r / lc b)
      divmodAux b fuel (add q t) (sub r (mul t b))

/-- Modelled from the spec: `Div::div` and `Rem::rem` are `todo!()` stubs; spec
§4.7 and §7 specify Euclidean long division that refuses to return a value when
the divisor is the zero polynomial (fatal precondition violation) and signals
failure when the divisor's leading coefficient is not invertible; both failure
modes are rendered as `none`. -/
def divmod [Field T] [DecidableEq T] (a b : Polynomial T) :
    Option (Polynomial T × Polynomial T) :=
  if is_zero b = true then none
  else if lc b = 0 then none
  else some (divmodAux b (a.deg + 1) zero a)

/-- Modelled from the spec: the quotient component of Euclidean division. -/
def div [Field T] [DecidableEq T] (a b : Polynomial T) : Option (Polynomial T) :=
  (divmod a b).map Prod.fst

/-- Modelled from the spec: the remainder component of Euclidean division. -/
def rem [Field T] [DecidableEq T] (a b : Polynomial T) : Option (Polynomial T) :=
  (divmod a b).map Prod.snd

/-- Normalization invariant: re-running the source's `from` constructor on the
backing storage reproduces the polynomial unchanged.  Every value the public
constructors produce satisfies it. -/
def IsNormal [Zero T] [DecidableEq T] (p : Polynomial T) : Prop :=
  fromList p.coeffs = p

instance [Zero T] [DecidableEq T] (p : Polynomial T) : Decidable (IsNormal p) :=
  inferInstanceAs (Decidable (fromList p.coeffs = p))

end BA

/-! ## Semantic interpretation and a computable test field

`toM` interprets an embedded polynomial as a Mathlib `Polynomial` by summing
the semantically significant coefficients (indices `0..deg`); it lives outside
the `BA` namespace so that `Polynomial` refers to Mathlib's type.  `F2` is a
two-element field whose operations reduce definitionally in the kernel (unlike
`ℚ` or `ZMod p`, whose division needs `Nat.gcd`), used to evaluate the
modelled division on concrete inputs. -/

noncomputable def toM {T : Type} [Semiring T] (p : BA.Polynomial T) :
    Polynomial T :=
  ∑ i in Finset.range (p.deg + 1), Polynomial.C (p.coeffs.getD i 0) * Polynomial.X ^ i

inductive F2 where
  | z
  | o
  deriving DecidableEq, Fintype

def F2.addF : F2 → F2 → F2
  | .z, x => x
  | .o, .z => .o
  | .o, .o => .z

def F2.mulF : F2 → F2 → F2
  | .z, _ => .z
  | .o, x => x

instance : Zero F2 := ⟨F2.z⟩

instance : One F2 := ⟨F2.o⟩

instance : Add F2 := ⟨F2.addF⟩

instance : Mul F2 := ⟨F2.mulF⟩

instance : Neg F2 := ⟨fun x => x⟩

instance : Inv F2 := ⟨fun x => x⟩

instance : CommRing F2 where
  add_assoc := by decide
  zero_add := by decide
  add_zero := by decide
  add_comm := by decide
  mul_assoc := by decide
  one_mul := by decide
  mul_one := by decide
  left_distrib := by decide
  right_distrib := by decide
  neg_add_cancel := by decide
  mul_comm := by decide
  zero_mul := by decide
  mul_zero := by decide
  nsmul := nsmulRec
  zsmul := zsmulRec

instance : Field F2 where
  exists_pair_ne := ⟨F2.z, F2.o, by decide⟩
  mul_inv_cancel := by decide
  inv_zero := by decide
  nnqsmul := _
  qsmul := _

/-! ## Basic list lemmas used throughout -/

namespace BA

variable {T : Type}

lemma getD_len_le {l : List T} {i : Nat} (d : T) (h : l.length ≤ i) :
    l.getD i d = d := by
  induction l generalizing i with
  | nil => simp [List.getD]
  | cons x xs ih =>
    cases i with
    | zero => simp at h
    | succ j => simpa using ih (by simpa using h)

lemma getD_append {l₁ l₂ : List T} {i : Nat} (d : T) :
    (l₁ ++ l₂).getD i d =
      if i < l₁.length then l₁.getD i d else l₂.getD (i - l₁.length) d := by
  induction l₁ generalizing i with
  | nil => simp
  | cons x xs ih =>
    cases i with
    | zero => simp
    | succ j => simpa using ih (i := j)

lemma getD_take {l : List T} {i n : Nat} (d : T) (h : i < n) :
    (l.take n).getD i d = l.getD i d := by
  induction l generalizing i n with
  | nil => simp
  | cons x xs ih =>
    cases n with
    | zero => exact absurd h (by simp)
    | succ m =>
      cases i with
      | zero => simp
      | succ j => simpa using ih (i := j) (n := m) (by omega)

lemma getD_map_range {α : Type} (f : Nat → α) {n i : Nat} (d : α) :
    ((List.range n).map f).getD i d = if i < n then f i else d := by
  induction n with
  | zero => simp [List.getD]
  | succ m ih =>
    rw [List.range_succ, List.map_append]
    rw [getD_append]
    simp only [List.length_map, List.length_range]
    by_cases hi : i < m
    · have h1 : i < m + 1 := by omega
      simp [hi, ih, h1]
    · by_cases him : i = m
      · subst him
        simp [hi]
      · have h1 : ¬ i < m + 1 := by omega
        have h2 : i - m ≠ 0 := by omega
        rcases Nat.exists_eq_succ_of_ne_zero h2 with ⟨j, hj⟩
        simp [hi, h1, hj, List.getD]

lemma getD_replicate_append [Zero T] {c : T} {k i : Nat} (d : T) :
    (List.replicate k (0 : T) ++ [c]).getD i d =
      if i < k then 0 else if i = k then c else d := by
  induction k generalizing i with
  | zero =>
    cases i with
    | zero => simp
    | succ j => simp [List.getD]
  | succ m ih =>
    rw [List.replicate_succ]
    cases i with
    | zero => simp
    | succ j =>
      have hih := ih (i := j)
      simp only [List.cons_append, List.getD_cons_succ]
      rw [hih]
      by_cases h1 : j < m
      · have h1' : j + 1 < m + 1 := by omega
        simp [h1, h1']
      · by_cases h2 : j = m
        · simp [h1, h2]
        · have h3 : ¬ j + 1 < m + 1 := by omega
          have h4 : ¬ j + 1 = m + 1 := by omega
          simp [h1, h2, h3, h4]

end BA

/-! ## Properties of `rposition` -/

namespace BA

variable {T : Type}

lemma rposition_lt {p : T → Bool} {l : List T} {i : Nat}
    (h : rposition p l = some i) : i < l.length := by
  induction l generalizing i with
  | nil => simp [rposition] at h
  | cons x xs ih =>
    cases hxs : rposition p xs with
    | some j =>
      simp only [rposition, hxs] at h
      cases h
      simpa using ih hxs
    | none =>
      by_cases hx : p x
      · simp only [rposition, hxs, hx, if_pos] at h
        cases h
        simp
      · simp [rposition, hxs, hx] at h

lemma rposition_getD {p : T → Bool} {l : List T} {i : Nat} (d : T)
    (h : rposition p l = some i) : p (l.getD i d) = true := by
  induction l generalizing i with
  | nil => simp [rposition] at h
  | cons x xs ih =>
    cases hxs : rposition p xs with
    | some j =>
      simp only [rposition, hxs] at h
      cases h
      simpa using ih hxs
    | none =>
      by_cases hx : p x
      · simp only [rposition, hxs, hx, if_pos] at h
        cases h
        simpa using hx
      · simp [rposition, hxs, hx] at h

lemma rposition_none_getD {p : T → Bool} {l : List T} {j : Nat} (d : T)
    (h : rposition p l = none) (hj : j < l.length) :
    p (l.getD j d) = false := by
  induction l generalizing j with
  | nil => simp at hj
  | cons x xs ih =>
    cases hxs : rposition p xs with
    | some m => simp [rposition, hxs] at h
    | none =>
      by_cases hx : p x
      · simp [rposition, hxs, hx] at h
      · cases j with
        | zero => simpa using hx
        | succ j' => simpa using ih hxs (by simpa using hj)

lemma rposition_after {p : T → Bool} {l : List T} {i j : Nat} (d : T)
    (h : rposition p l = some i) (hij : i < j) (hj : j < l.length) :
    p (l.getD j d) = false := by
  induction l generalizing i j with
  | nil => simp [rposition] at h
  | cons x xs ih =>
    cases hxs : rposition p xs with
    | some m =>
      simp only [rposition, hxs] at h
      cases h
      cases j with
      | zero => omega
      | succ j' =>
        simpa using ih (i := m) (j := j') hxs (by omega) (by simpa using hj)
    | none =>
      by_cases hx : p x
      · simp only [rposition, hxs, hx, if_pos] at h
        cases h
        cases j with
        | zero => omega
        | succ j' =>
          simpa using rposition_none_getD (d := d) hxs (by simpa using hj)
      · simp [rposition, hxs, hx] at h

end BA

/-! ## Structure of `fromList` results and the normalization invariant -/

namespace BA

variable {T : Type} [Zero T] [DecidableEq T]

lemma fromList_nil : (fromList ([] : List T)) = defaultPoly := by
  simp [fromList]

lemma fromList_coeffs (s : List T) : (fromList s).coeffs = s := by
  by_cases h : s = []
  · subst h
    simp [fromList, defaultPoly]
  · simp [fromList, h]

lemma fromList_deg_lt {s : List T} (h : s ≠ []) :
    (fromList s).deg < s.length := by
  rw [fromList, if_neg h]
  cases hr : rposition (fun coeff => decide (coeff ≠ 0)) s with
  | some i => simpa using rposition_lt hr
  | none =>
    cases s with
    | nil => exact absurd rfl h
    | cons x xs => simp

lemma fromList_deg_zero_above {s : List T} {j : Nat}
    (h : (fromList s).deg < j) : s.getD j 0 = 0 := by
  by_cases hs : s = []
  · subst hs
    cases j <;> simp [List.getD]
  · by_cases hj : j < s.length
    · rw [fromList, if_neg hs] at h
      cases hr : rposition (fun coeff => decide (coeff ≠ 0)) s with
      | some i =>
        rw [hr] at h
        simp only [Option.getD_some] at h
        have hfa := rposition_after (d := (0 : T)) hr h hj
        simpa using hfa
      | none =>
        have hfa := rposition_none_getD (d := (0 : T)) hr hj
        simpa using hfa
    · exact getD_len_le 0 (by omega)

lemma fromList_lc_ne {s : List T} (h : (fromList s).deg ≠ 0) :
    s.getD (fromList s).deg 0 ≠ 0 := by
  by_cases hs : s = []
  · subst hs
    rw [fromList_nil] at h
    simp [defaultPoly] at h
  · rw [fromList, if_neg hs] at h ⊢
    cases hr : rposition (fun coeff => decide (coeff ≠ 0)) s with
    | none =>
      simp only [hr, Option.getD_none] at h
      simp at h
    | some i =>
      simp only [hr, Option.getD_some] at h ⊢
      have hg := rposition_getD (d := (0 : T)) hr
      simpa using hg

lemma fromList_isNormal (s : List T) : IsNormal (fromList s) := by
  unfold IsNormal
  rw [fromList_coeffs]

lemma IsNormal.deg_lt {p : Polynomial T} (hp : IsNormal p)
    (hne : p.coeffs ≠ []) : p.deg < p.coeffs.length := by
  have h := fromList_deg_lt (s := p.coeffs) hne
  rw [hp] at h
  exact h

lemma IsNormal.zero_above {p : Polynomial T} (hp : IsNormal p) {j : Nat}
    (h : p.deg < j) : p.coeffs.getD j 0 = 0 := by
  apply fromList_deg_zero_above (s := p.coeffs)
  rw [hp]
  exact h

lemma IsNormal.lc_ne {p : Polynomial T} (hp : IsNormal p)
    (h : p.deg ≠ 0) : p.coeffs.getD p.deg 0 ≠ 0 := by
  have hg := fromList_lc_ne (s := p.coeffs) (by rw [hp]; exact h)
  rw [hp] at hg
  exact hg

lemma new_eq_default : (new : Polynomial T) = defaultPoly := rfl

lemma zero_coeffs : (zero : Polynomial T).coeffs = [0] := by
  rw [zero, fromList_coeffs]

lemma zero_deg : (zero : Polynomial T).deg = 0 := by
  have h := fromList_deg_lt (s := ([0] : List T)) (by simp)
  simpa [zero] using Nat.lt_one_iff.mp (by simpa using h)

end BA

/-! ## Characterizing the source's equality test -/

namespace BA

variable {T : Type}

lemma enumFrom_take_eq_iff {u v : List T} {n k : Nat} :
    (List.enumFrom k u).take n = (List.enumFrom k v).take n ↔
      u.take n = v.take n := by
  induction u generalizing v n k with
  | nil =>
    cases v with
    | nil => simp
    | cons y ys =>
      cases n with
      | zero => simp
      | succ m => simp [List.enumFrom]
  | cons x xs ih =>
    cases v with
    | nil =>
      cases n with
      | zero => simp
      | succ m => simp [List.enumFrom]
    | cons y ys =>
      cases n with
      | zero => simp
      | succ m =>
        simp only [List.enumFrom, List.take_succ_cons, List.cons.injEq,
          Prod.mk.injEq, true_and]
        rw [ih (v := ys) (n := m) (k := k + 1)]

lemma enum_take_eq_iff {u v : List T} {n : Nat} :
    u.enum.take n = v.enum.take n ↔ u.take n = v.take n := by
  simpa [List.enum] using
    enumFrom_take_eq_iff (u := u) (v := v) (n := n) (k := 0)

lemma take_eq_iff_getD [Zero T] {l₁ l₂ : List T} {n : Nat}
    (h₁ : n ≤ l₁.length) (h₂ : n ≤ l₂.length) :
    l₁.take n = l₂.take n ↔ ∀ j, j < n → l₁.getD j 0 = l₂.getD j 0 := by
  induction n generalizing l₁ l₂ with
  | zero => simp
  | succ m ih =>
    cases l₁ with
    | nil => simp at h₁
    | cons x xs =>
      cases l₂ with
      | nil => simp at h₂
      | cons y ys =>
        simp only [List.take_succ_cons, List.cons.injEq]
        rw [ih (by simpa using h₁) (by simpa using h₂)]
        constructor
        · rintro ⟨hxy, hrest⟩ j hj
          cases j with
          | zero => simpa using hxy
          | succ i => simpa using hrest i (by omega)
        · intro hall
          refine ⟨by simpa using hall 0 (by omega), fun i hi => ?_⟩
          simpa using hall (i + 1) (by omega)

lemma eq_true_iff [DecidableEq T] {a b : Polynomial T} :
    eq a b = true ↔
      a.deg = b.deg ∧
        a.coeffs.take (a.deg + 1) = b.coeffs.take (a.deg + 1) := by
  unfold eq
  by_cases h : a.deg = b.deg
  · simp [h, enum_take_eq_iff]
  · simp [h]

end BA

/-! ## Semantic interpretation into Mathlib polynomials

The embedded polynomials are interpreted as Mathlib `Polynomial` values by
summing the semantically significant coefficients (indices `0..deg`); the
interpretation validates the algebraic claims.  These declarations live
outside the `BA` namespace so that `Polynomial` refers to Mathlib's type. -/

lemma coeff_sum_C_X {T : Type} [Semiring T] (f : Nat → T) (n j : Nat) :
    (∑ i in Finset.range n, Polynomial.C (f i) * Polynomial.X ^ i).coeff j =
      if j < n then f j else 0 := by
  rw [Polynomial.finset_sum_coeff]
  have h1 : ∀ i ∈ Finset.range n,
      (Polynomial.C (f i) * Polynomial.X ^ i).coeff j =
        if j = i then f i else 0 := by
    intro i _
    rw [Polynomial.coeff_C_mul, Polynomial.coeff_X_pow]
    by_cases hji : j = i <;> simp [hji]
  rw [Finset.sum_congr rfl h1, Finset.sum_ite_eq]
  simp [Finset.mem_range]

lemma toM_coeff {T : Type} [Semiring T] (p : BA.Polynomial T) (j : Nat) :
    (toM p).coeff j = if j ≤ p.deg then p.coeffs.getD j 0 else 0 := by
  rw [toM, coeff_sum_C_X]
  simp [Nat.lt_succ_iff]

lemma toM_coeff_normal {T : Type} [Semiring T] [DecidableEq T]
    {p : BA.Polynomial T} (hp : BA.IsNormal p) (j : Nat) :
    (toM p).coeff j = p.coeffs.getD j 0 := by
  rw [toM_coeff]
  by_cases h : j ≤ p.deg
  · simp [h]
  · rw [if_neg h, hp.zero_above (by omega)]

lemma toM_defaultPoly {T : Type} [Semiring T] :
    toM (BA.defaultPoly : BA.Polynomial T) = 0 := by
  apply Polynomial.ext
  intro j
  rw [toM_coeff]
  simp [BA.defaultPoly, List.getD]

lemma toM_zero {T : Type} [Semiring T] [DecidableEq T] :
    toM (BA.zero : BA.Polynomial T) = 0 := by
  apply Polynomial.ext
  intro j
  rw [BA.zero, toM_coeff_normal (BA.fromList_isNormal _), BA.fromList_coeffs]
  cases j <;> simp [List.getD]

lemma toM_one {T : Type} [Semiring T] [DecidableEq T] :
    toM (BA.one : BA.Polynomial T) = 1 := by
  apply Polynomial.ext
  intro j
  rw [BA.one, toM_coeff_normal (BA.fromList_isNormal _), BA.fromList_coeffs]
  cases j with
  | zero => simp
  | succ i => simp [List.getD, Polynomial.coeff_one]

lemma toM_add_pad {T : Type} [Semiring T] [DecidableEq T]
    {a b : BA.Polynomial T} (ha : BA.IsNormal a) (hb : BA.IsNormal b)
    (hd : b.deg ≤ a.deg) :
    toM (BA.add_pad_second a b) = toM a + toM b := by
  apply Polynomial.ext
  intro j
  have hnorm : BA.IsNormal (BA.add_pad_second a b) := BA.fromList_isNormal _
  rw [toM_coeff_normal hnorm, Polynomial.coeff_add, toM_coeff_normal ha,
    toM_coeff_normal hb]
  unfold BA.add_pad_second
  rw [BA.fromList_coeffs, BA.getD_map_range]
  by_cases hj : j < a.deg + 1
  · simp [hj]
  · have hja : a.deg < j := by omega
    have hjb : b.deg < j := by omega
    rw [if_neg hj, ha.zero_above hja, hb.zero_above hjb, add_zero]

lemma toM_add {T : Type} [Semiring T] [DecidableEq T]
    {a b : BA.Polynomial T} (ha : BA.IsNormal a) (hb : BA.IsNormal b) :
    toM (BA.add a b) = toM a + toM b := by
  by_cases h : a.deg ≥ b.deg
  · rw [show BA.add a b = BA.add_pad_second a b by
      simp [BA.add, BA.compare_deg, h]]
    exact toM_add_pad ha hb h
  · rw [show BA.add a b = BA.add_pad_second b a by
      simp [BA.add, BA.compare_deg, h]]
    rw [toM_add_pad hb ha (by omega), add_comm]

lemma getD_map_neg {T : Type} [Ring T] (l : List T) (j : Nat) :
    (l.map fun elem => -elem).getD j 0 = -(l.getD j 0) := by
  induction l generalizing j with
  | nil => simp [List.getD]
  | cons x xs ih =>
    cases j with
    | zero => simp
    | succ i => simpa using ih i

lemma toM_neg {T : Type} [Ring T] [DecidableEq T]
    {a : BA.Polynomial T} (ha : BA.IsNormal a) :
    toM (BA.neg a) = -toM a := by
  apply Polynomial.ext
  intro j
  have hnorm : BA.IsNormal (BA.neg a) := BA.fromList_isNormal _
  rw [toM_coeff_normal hnorm, Polynomial.coeff_neg, toM_coeff_normal ha]
  rw [BA.neg, BA.fromList_coeffs]
  exact getD_map_neg _ _

lemma toM_sub {T : Type} [Ring T] [DecidableEq T]
    {a b : BA.Polynomial T} (ha : BA.IsNormal a) (hb : BA.IsNormal b) :
    toM (BA.sub a b) = toM a - toM b := by
  have hnb : BA.IsNormal (BA.neg b) := BA.fromList_isNormal _
  rw [BA.sub, toM_add ha hnb, toM_neg hb, sub_eq_add_neg]

lemma foldl_skip_add {T : Type} [AddCommMonoid T] (P : Nat → Prop)
    [DecidablePred P] (g : Nat → T) (l : List Nat) (z : T) :
    l.foldl (fun acc i => if P i then acc else acc + g i) z =
      z + (l.map fun i => if P i then 0 else g i).sum := by
  induction l generalizing z with
  | nil => simp
  | cons x xs ih =>
    by_cases hx : P x
    · simp [hx, ih]
    · simp only [List.foldl_cons, List.map_cons, List.sum_cons, if_neg hx]
      rw [ih, add_assoc]

lemma sum_map_range_eq {T : Type} [AddCommMonoid T] (f : Nat → T) (n : Nat) :
    ((List.range n).map f).sum = ∑ i in Finset.range n, f i := by
  induction n with
  | zero => simp
  | succ m ih =>
    rw [List.range_succ, List.map_append, List.sum_append,
      Finset.sum_range_succ, ih]
    simp

lemma mul_coeffs {T : Type} [Semiring T] [DecidableEq T]
    (a b : BA.Polynomial T) :
    (BA.mul a b).coeffs =
      (List.range (a.deg + b.deg + 1)).map fun k =>
        (List.range (k + 1)).foldl
          (fun acc i =>
            if i > a.deg ∨ k - i > b.deg then acc
            else acc + a.coeffs.getD i 0 * b.coeffs.getD (k - i) 0)
          0 := by
  rw [BA.mul, BA.fromList_coeffs]

lemma mul_entry_eq_sum {T : Type} [Semiring T] [DecidableEq T]
    (a b : BA.Polynomial T) (k : Nat) :
    ((List.range (k + 1)).foldl
        (fun acc i =>
          if i > a.deg ∨ k - i > b.deg then acc
          else acc + a.coeffs.getD i 0 * b.coeffs.getD (k - i) 0)
        0 : T) =
      ∑ i in Finset.range (k + 1),
        if i > a.deg ∨ k - i > b.deg then 0
        else a.coeffs.getD i 0 * b.coeffs.getD (k - i) 0 := by
  rw [foldl_skip_add (fun i => i > a.deg ∨ k - i > b.deg)
    (fun i => a.coeffs.getD i 0 * b.coeffs.getD (k - i) 0)]
  rw [zero_add, sum_map_range_eq]

lemma toM_mul {T : Type} [Semiring T] [DecidableEq T]
    {a b : BA.Polynomial T} (ha : BA.IsNormal a) (hb : BA.IsNormal b) :
    toM (BA.mul a b) = toM a * toM b := by
  apply Polynomial.ext
  intro j
  have hnorm : BA.IsNormal (BA.mul a b) := BA.fromList_isNormal _
  rw [toM_coeff_normal hnorm, mul_coeffs, BA.getD_map_range,
    Polynomial.coeff_mul, Finset.Nat.sum_antidiagonal_eq_sum_range_succ_mk]
  have hterm : ∀ i ∈ Finset.range (j + 1),
      (toM a).coeff i * (toM b).coeff (j - i) =
        a.coeffs.getD i 0 * b.coeffs.getD (j - i) 0 := by
    intro i _
    rw [toM_coeff_normal ha, toM_coeff_normal hb]
  rw [Finset.sum_congr rfl hterm]
  by_cases hj : j < a.deg + b.deg + 1
  · rw [if_pos hj, mul_entry_eq_sum]
    apply Finset.sum_congr rfl
    intro i hi
    by_cases hskip : i > a.deg ∨ j - i > b.deg
    · rw [if_pos hskip]
      rcases hskip with h1 | h2
      · rw [ha.zero_above h1, zero_mul]
      · rw [hb.zero_above h2, mul_zero]
    · rw [if_neg hskip]
  · rw [if_neg hj]
    symm
    apply Finset.sum_eq_zero
    intro i hi
    by_cases hia : i ≤ a.deg
    · have : b.deg < j - i := by
        simp only [Finset.mem_range] at hi
        omega
      rw [hb.zero_above this, mul_zero]
    · rw [ha.zero_above (by omega), zero_mul]

lemma eq_true_iff_toM {T : Type} [Semiring T] [DecidableEq T]
    {a b : BA.Polynomial T} (ha : BA.IsNormal a) (hb : BA.IsNormal b)
    (hea : a.coeffs ≠ []) (heb : b.coeffs ≠ []) :
    BA.eq a b = true ↔ toM a = toM b := by
  rw [BA.eq_true_iff]
  constructor
  · rintro ⟨hdeg, htake⟩
    apply Polynomial.ext
    intro j
    rw [toM_coeff, toM_coeff, ← hdeg]
    by_cases hj : j ≤ a.deg
    · have h1 := BA.getD_take (l := a.coeffs) (i := j) (n := a.deg + 1)
        (0 : T) (by omega)
      have h2 := BA.getD_take (l := b.coeffs) (i := j) (n := a.deg + 1)
        (0 : T) (by omega)
      rw [if_pos hj, if_pos hj, ← h1, ← h2, htake]
    · rw [if_neg hj, if_neg hj]
  · intro htoM
    have hcoeff : ∀ j, a.coeffs.getD j 0 = b.coeffs.getD j 0 := by
      intro j
      rw [← toM_coeff_normal ha, ← toM_coeff_normal hb, htoM]
    have hdeg : a.deg = b.deg := by
      rcases Nat.lt_trichotomy a.deg b.deg with h | h | h
      · exfalso
        have hbne := hb.lc_ne (by omega)
        rw [← hcoeff, ha.zero_above h] at hbne
        exact hbne rfl
      · exact h
      · exfalso
        have hane := ha.lc_ne (by omega)
        rw [hcoeff, hb.zero_above h] at hane
        exact hane rfl
    refine ⟨hdeg, ?_⟩
    rw [BA.take_eq_iff_getD (by have := ha.deg_lt hea; omega)
      (by have := hb.deg_lt heb; rw [hdeg]; omega)]
    intro j _
    exact hcoeff j

lemma is_zero_iff_toM {T : Type} [Semiring T] [DecidableEq T]
    {a : BA.Polynomial T} (ha : BA.IsNormal a) (hea : a.coeffs ≠ []) :
    BA.is_zero a = true ↔ toM a = 0 := by
  have hz : BA.IsNormal (BA.zero : BA.Polynomial T) := BA.fromList_isNormal _
  have hzne : (BA.zero : BA.Polynomial T).coeffs ≠ [] := by
    rw [BA.zero_coeffs]
    simp
  rw [BA.is_zero]
  by_cases h : BA.eq a BA.zero = true
  · simp only [h, if_true]
    rw [(eq_true_iff_toM ha hz hea hzne).mp h, toM_zero]
    simp
  · simp only [h, if_false]
    rw [eq_true_iff_toM ha hz hea hzne] at h
    rw [toM_zero] at h
    simpa using h

lemma toM_lc {T : Type} [Semiring T] [DecidableEq T]
    {a : BA.Polynomial T} (ha : BA.IsNormal a) (hea : a.coeffs ≠ []) :
    toM a = 0 ↔ BA.lc a = 0 := by
  constructor
  · intro h
    have := toM_coeff_normal ha a.deg
    rw [h] at this
    simp only [Polynomial.coeff_zero] at this
    rw [BA.lc, ← this]
  · intro h
    have hdeg : a.deg = 0 := by
      by_contra hne
      exact ha.lc_ne hne h
    apply Polynomial.ext
    intro j
    rw [toM_coeff]
    by_cases hj : j ≤ a.deg
    · have hj0 : j = 0 := by omega
      subst hj0
      rw [if_pos hj]
      rw [BA.lc, hdeg] at h
      rw [Polynomial.coeff_zero]
      exact h
    · simp [hj]

lemma natDegree_toM {T : Type} [Semiring T] [DecidableEq T]
    {a : BA.Polynomial T} (ha : BA.IsNormal a) (hne : toM a ≠ 0) :
    (toM a).natDegree = a.deg := by
  apply le_antisymm
  · rw [Polynomial.natDegree_le_iff_coeff_eq_zero]
    intro j hj
    rw [toM_coeff, if_neg (by omega)]
  · by_cases h0 : a.deg = 0
    · omega
    · apply Polynomial.le_natDegree_of_ne_zero
      rw [toM_coeff_normal ha]
      exact ha.lc_ne h0

lemma toM_monomial {T : Type} [Semiring T] [DecidableEq T] (k : Nat) (c : T) :
    toM (BA.monomial k c) = Polynomial.C c * Polynomial.X ^ k := by
  apply Polynomial.ext
  intro j
  have hnorm : BA.IsNormal (BA.monomial k c) := BA.fromList_isNormal _
  rw [toM_coeff_normal hnorm, BA.monomial, BA.fromList_coeffs,
    BA.getD_replicate_append, Polynomial.coeff_C_mul, Polynomial.coeff_X_pow]
  by_cases h1 : j < k
  · rw [if_pos h1, if_neg (by omega), mul_zero]
  · by_cases h2 : j = k
    · rw [if_neg h1, if_pos h2, if_pos h2, mul_one]
    · rw [if_neg h1, if_neg h2, if_neg h2, mul_zero]

/-! ## Normality and nonemptiness of operation results -/

lemma add_isNormal {T : Type} [Add T] [Zero T] [DecidableEq T]
    (a b : BA.Polynomial T) : BA.IsNormal (BA.add a b) := by
  unfold BA.add
  split <;> exact BA.fromList_isNormal _

lemma add_coeffs_ne {T : Type} [Add T] [Zero T] [DecidableEq T]
    (a b : BA.Polynomial T) : (BA.add a b).coeffs ≠ [] := by
  unfold BA.add BA.add_pad_second
  split <;> rw [BA.fromList_coeffs] <;> simp [List.range_succ]

lemma neg_isNormal {T : Type} [Neg T] [Zero T] [DecidableEq T]
    (a : BA.Polynomial T) : BA.IsNormal (BA.neg a) :=
  BA.fromList_isNormal _

lemma sub_isNormal {T : Type} [Add T] [Neg T] [Zero T] [DecidableEq T]
    (a b : BA.Polynomial T) : BA.IsNormal (BA.sub a b) :=
  add_isNormal _ _

lemma sub_coeffs_ne {T : Type} [Add T] [Neg T] [Zero T] [DecidableEq T]
    (a b : BA.Polynomial T) : (BA.sub a b).coeffs ≠ [] :=
  add_coeffs_ne _ _

lemma mul_isNormal {T : Type} [Mul T] [Add T] [Zero T] [DecidableEq T]
    (a b : BA.Polynomial T) : BA.IsNormal (BA.mul a b) :=
  BA.fromList_isNormal _

lemma mul_coeffs_ne {T : Type} [Semiring T] [DecidableEq T]
    (a b : BA.Polynomial T) : (BA.mul a b).coeffs ≠ [] := by
  rw [mul_coeffs]
  simp [List.range_succ]

lemma zero_isNormal {T : Type} [Zero T] [DecidableEq T] :
    BA.IsNormal (BA.zero : BA.Polynomial T) :=
  BA.fromList_isNormal _

lemma zero_coeffs_ne {T : Type} [Zero T] [DecidableEq T] :
    (BA.zero : BA.Polynomial T).coeffs ≠ [] := by
  rw [BA.zero_coeffs]
  simp

/-! ## Correctness of the modelled Euclidean division -/

lemma is_zero_false_lc {T : Type} [Semiring T] [DecidableEq T]
    {a : BA.Polynomial T} (ha : BA.IsNormal a) (hea : a.coeffs ≠ [])
    (hz : BA.is_zero a = false) : BA.lc a ≠ 0 := by
  intro h
  have := (is_zero_iff_toM ha hea).mpr ((toM_lc ha hea).mpr h)
  rw [hz] at this
  exact Bool.false_ne_true this

lemma div_step_toM {T : Type} [Field T] [DecidableEq T]
    {r b : BA.Polynomial T} (hr : BA.IsNormal r) (hb : BA.IsNormal b) :
    toM (BA.sub r (BA.mul (BA.monomial (r.deg - b.deg) (BA.lc r / BA.lc b)) b)) =
      toM r -
        Polynomial.C (BA.lc r / BA.lc b) * Polynomial.X ^ (r.deg - b.deg) *
          toM b := by
  have ht : BA.IsNormal (BA.monomial (r.deg - b.deg) (BA.lc r / BA.lc b)) :=
    BA.fromList_isNormal _
  have hm : BA.IsNormal
      (BA.mul (BA.monomial (r.deg - b.deg) (BA.lc r / BA.lc b)) b) :=
    mul_isNormal _ _
  rw [toM_sub hr hm, toM_mul ht hb, toM_monomial]

lemma div_step_deg {T : Type} [Field T] [DecidableEq T]
    {r b : BA.Polynomial T}
    (hr : BA.IsNormal r) (hrne : r.coeffs ≠ []) (hrz : BA.is_zero r = false)
    (hb : BA.IsNormal b) (hbne : b.coeffs ≠ []) (hbz : BA.is_zero b = false)
    (hdeg : b.deg ≤ r.deg) :
    BA.is_zero
        (BA.sub r (BA.mul (BA.monomial (r.deg - b.deg) (BA.lc r / BA.lc b)) b))
          = true ∨
      (BA.sub r
          (BA.mul (BA.monomial (r.deg - b.deg) (BA.lc r / BA.lc b)) b)).deg <
        r.deg := by
  set c := BA.lc r / BA.lc b with hc_def
  set k := r.deg - b.deg with hk_def
  set r' := BA.sub r (BA.mul (BA.monomial k c) b) with hr'_def
  have hlcb : BA.lc b ≠ 0 := is_zero_false_lc hb hbne hbz
  have hlcr : BA.lc r ≠ 0 := is_zero_false_lc hr hrne hrz
  have hc : c ≠ 0 := div_ne_zero hlcr hlcb
  have hRnz : toM r ≠ 0 := by
    intro h
    have := (is_zero_iff_toM hr hrne).mpr h
    rw [hrz] at this
    exact Bool.false_ne_true this
  have hBnz : toM b ≠ 0 := by
    intro h
    have := (is_zero_iff_toM hb hbne).mpr h
    rw [hbz] at this
    exact Bool.false_ne_true this
  have hdb : (toM b).natDegree = b.deg := natDegree_toM hb hBnz
  have hr'toM : toM r' =
      toM r - Polynomial.C c * Polynomial.X ^ k * toM b :=
    div_step_toM hr hb
  have hPdeg : (Polynomial.C c * Polynomial.X ^ k * toM b).natDegree ≤ r.deg := by
    calc (Polynomial.C c * Polynomial.X ^ k * toM b).natDegree
        ≤ (Polynomial.C c * Polynomial.X ^ k).natDegree + (toM b).natDegree :=
          Polynomial.natDegree_mul_le
      _ ≤ k + b.deg := by
          rw [Polynomial.natDegree_C_mul_X_pow k c hc, hdb]
      _ ≤ r.deg := by omega
  have hhigh : ∀ j, r.deg < j → (toM r').coeff j = 0 := by
    intro j hj
    rw [hr'toM, Polynomial.coeff_sub, toM_coeff, if_neg (by omega),
      Polynomial.coeff_eq_zero_of_natDegree_lt (by omega), sub_zero]
  have htop : (toM r').coeff r.deg = 0 := by
    have hsplit : r.deg = b.deg + k := by omega
    rw [hr'toM, Polynomial.coeff_sub, mul_assoc, Polynomial.coeff_C_mul,
      hsplit, Polynomial.coeff_X_pow_mul, toM_coeff_normal hr,
      toM_coeff_normal hb, ← hsplit]
    have : c * (b.coeffs.getD b.deg 0) = BA.lc r := by
      rw [hc_def, show b.coeffs.getD b.deg 0 = BA.lc b from rfl]
      exact div_mul_cancel₀ _ hlcb
    rw [this, BA.lc, sub_self]
  have hr'n : BA.IsNormal r' := sub_isNormal _ _
  have hr'ne : r'.coeffs ≠ [] := sub_coeffs_ne _ _
  cases hz : BA.is_zero r' with
  | true => exact Or.inl rfl
  | false =>
    right
    have hr'nz : toM r' ≠ 0 := by
      intro h
      have := (is_zero_iff_toM hr'n hr'ne).mpr h
      rw [hz] at this
      exact Bool.false_ne_true this
    have hdegle : (toM r').natDegree ≤ r.deg := by
      rw [Polynomial.natDegree_le_iff_coeff_eq_zero]
      exact hhigh
    have hdegne : (toM r').natDegree ≠ r.deg := by
      intro hEq
      have hlead : (toM r').leadingCoeff = 0 := by
        rw [Polynomial.leadingCoeff, hEq]
        exact htop
      exact hr'nz (Polynomial.leadingCoeff_eq_zero.mp hlead)
    have : (toM r').natDegree < r.deg := lt_of_le_of_ne hdegle hdegne
    rw [← natDegree_toM hr'n hr'nz]
    exact this

lemma divmodAux_spec {T : Type} [Field T] [DecidableEq T] {b : BA.Polynomial T}
    (hb : BA.IsNormal b) (hbne : b.coeffs ≠ []) (hbz : BA.is_zero b = false) :
    ∀ fuel (q r : BA.Polynomial T), BA.IsNormal q → q.coeffs ≠ [] →
      BA.IsNormal r → r.coeffs ≠ [] →
      (BA.is_zero r = true ∨ r.deg < fuel) →
      BA.IsNormal (BA.divmodAux b fuel q r).1 ∧
        (BA.divmodAux b fuel q r).1.coeffs ≠ [] ∧
        BA.IsNormal (BA.divmodAux b fuel q r).2 ∧
        (BA.divmodAux b fuel q r).2.coeffs ≠ [] ∧
        toM (BA.divmodAux b fuel q r).1 * toM b + toM (BA.divmodAux b fuel q r).2 =
          toM q * toM b + toM r ∧
        (BA.is_zero (BA.divmodAux b fuel q r).2 = true ∨
          (BA.divmodAux b fuel q r).2.deg < b.deg) := by
  intro fuel
  induction fuel with
  | zero =>
    intro q r hq hqne hr hrne hcond
    simp only [BA.divmodAux]
    refine ⟨hq, hqne, hr, hrne, by trivial, ?_⟩
    rcases hcond with h | h
    · exact Or.inl h
    · omega
  | succ fuel ih =>
    intro q r hq hqne hr hrne hcond
    by_cases hstop : BA.is_zero r = true ∨ r.deg < b.deg
    · simp only [BA.divmodAux, if_pos hstop]
      exact ⟨hq, hqne, hr, hrne, by trivial, hstop⟩
    · simp only [BA.divmodAux, if_neg hstop]
      push_neg at hstop
      obtain ⟨hrz', hdegge⟩ := hstop
      have hrz : BA.is_zero r = false := Bool.not_eq_true _ ▸ Bool.eq_false_iff.mpr hrz'
      have hdeg : b.deg ≤ r.deg := by omega
      have hrle : r.deg < fuel + 1 := by
        rcases hcond with h | h
        · exact absurd h hrz'
        · exact h
      have ht : BA.IsNormal (BA.monomial (r.deg - b.deg) (BA.lc r / BA.lc b)) :=
        BA.fromList_isNormal _
      have hq' : BA.IsNormal (BA.add q (BA.monomial (r.deg - b.deg) (BA.lc r / BA.lc b))) :=
        add_isNormal _ _
      have hq'ne := add_coeffs_ne q (BA.monomial (r.deg - b.deg) (BA.lc r / BA.lc b))
      have hr' : BA.IsNormal
          (BA.sub r (BA.mul (BA.monomial (r.deg - b.deg) (BA.lc r / BA.lc b)) b)) :=
        sub_isNormal _ _
      have hr'ne := sub_coeffs_ne r
        (BA.mul (BA.monomial (r.deg - b.deg) (BA.lc r / BA.lc b)) b)
      have hcase := div_step_deg hr hrne hrz hb hbne hbz hdeg
      have hnext : BA.is_zero
          (BA.sub r (BA.mul (BA.monomial (r.deg - b.deg) (BA.lc r / BA.lc b)) b)) = true ∨
          (BA.sub r (BA.mul (BA.monomial (r.deg - b.deg) (BA.lc r / BA.lc b)) b)).deg <
            fuel := by
        rcases hcase with h | h
        · exact Or.inl h
        · exact Or.inr (by omega)
      obtain ⟨h1, h2, h3, h4, h5, h6⟩ := ih _ _ hq' hq'ne hr' hr'ne hnext
      refine ⟨h1, h2, h3, h4, ?_, h6⟩
      rw [h5, toM_add hq ht, toM_monomial, div_step_toM hr hb]
      ring

lemma divmod_spec {T : Type} [Field T] [DecidableEq T] {a b : BA.Polynomial T}
    (ha : BA.IsNormal a) (hane : a.coeffs ≠ [])
    (hb : BA.IsNormal b) (hbz : BA.is_zero b = false) (hlcb : BA.lc b ≠ 0) :
    ∃ q r, BA.divmod a b = some (q, r) ∧
      BA.eq a (BA.add (BA.mul q b) r) = true ∧
      (BA.is_zero r = true ∨ r.deg < b.deg) := by
  have hbne : b.coeffs ≠ [] := by
    intro h
    apply hlcb
    rw [BA.lc, h]
    rfl
  have hmain := divmodAux_spec hb hbne hbz (a.deg + 1) BA.zero a
    zero_isNormal zero_coeffs_ne ha hane (Or.inr (by omega))
  obtain ⟨hQn, hQne, hRn, hRne, hInv, hRdeg⟩ := hmain
  refine ⟨(BA.divmodAux b (a.deg + 1) BA.zero a).1,
    (BA.divmodAux b (a.deg + 1) BA.zero a).2, ?_, ?_, hRdeg⟩
  · rw [BA.divmod, if_neg (by rw [hbz]; simp), if_neg hlcb]
  · rw [eq_true_iff_toM ha (add_isNormal _ _) hane (add_coeffs_ne _ _)]
    rw [toM_add (mul_isNormal _ _) hRn, toM_mul hQn hb]
    rw [hInv, toM_zero, zero_mul, zero_add]

/-! ## Remaining helper lemmas -/

lemma map_range_congr {α : Type} (f g : Nat → α) (n : Nat)
    (h : ∀ i, i < n → f i = g i) :
    (List.range n).map f = (List.range n).map g := by
  induction n with
  | zero => simp
  | succ m ih =>
    rw [List.range_succ, List.map_append, List.map_append,
      ih (fun i hi => h i (by omega))]
    simp [h m (by omega)]

/-! ## The claims -/

/-- C1: for every coefficient sequence `s`, `from(s)` succeeds and produces a
polynomial whose degree is the highest index `i` with `s[i] ≠ zero(T)` (or `0`
when the sequence is empty or all-zero), and whose `coeffs()` is exactly the
input sequence with no truncation. -/
theorem claim_C1_from_normalization {T : Type} [Zero T] [DecidableEq T]
    (s : List T) :
    (BA.fromList s).coeffs = s ∧
      (BA.fromList s).deg =
        Nat.findGreatest (fun i => s.getD i 0 ≠ 0) s.length := by
  refine ⟨BA.fromList_coeffs s, ?_⟩
  by_cases hs : s = []
  · subst hs
    rw [BA.fromList_nil]
    rfl
  · symm
    rw [Nat.findGreatest_eq_iff]
    refine ⟨?_, ?_, ?_⟩
    · have := BA.fromList_deg_lt hs
      omega
    · intro h
      exact BA.fromList_lc_ne h
    · intro n hlt hle
      rw [not_not]
      exact BA.fromList_deg_zero_above hlt

/-- C2: the code refutes the claim that the empty-sequence and single-zero
representations of the zero polynomial are equal: `eq` compares the first
`deg + 1` stored pairs, and the empty backing vector yields no pairs while
`zero()`'s yields one, so `from([]) != zero()` and `is_zero(from([]))` is
false; the nonempty-backing part of the claim does hold, as the third
conjunct illustrates. -/
theorem claim_C2_empty_zero_bug :
    BA.eq (BA.fromList ([] : List ℤ)) BA.zero = false ∧
      BA.is_zero (BA.fromList ([] : List ℤ)) = false ∧
      BA.is_zero (BA.fromList ([0, 0, 0] : List ℤ)) = true := by
  decide

/-- C3: the code refutes trailing-zero invariance at the empty sequence:
appending one `zero(T)` to the empty sequence changes the polynomial under the
source's `eq` (`from([]) != from([0])`), while for nonempty sequences the
invariance does hold, as the second conjunct (the spec's own example)
illustrates. -/
theorem claim_C3_trailing_zero_bug :
    BA.eq (BA.fromList ([] : List ℤ))
        (BA.fromList (([] : List ℤ) ++ List.replicate 1 (0 : ℤ))) = false ∧
      BA.eq (BA.fromList ([1, 2, 3, 4] : List ℤ))
        (BA.fromList (([1, 2, 3, 4] : List ℤ) ++ List.replicate 6 (0 : ℤ))) =
          true := by
  decide

/-- C4: construction, equality, addition, negation, subtraction and
multiplication are total: on every input they return a value, namely a
polynomial satisfying the representation invariant (equality returns one of
the two Booleans). -/
theorem claim_C4_totality {T : Type} [Ring T] [DecidableEq T] (s t : List T) :
    BA.IsNormal (BA.fromList s) ∧
      (BA.eq (BA.fromList s) (BA.fromList t) = true ∨
        BA.eq (BA.fromList s) (BA.fromList t) = false) ∧
      BA.IsNormal (BA.add (BA.fromList s) (BA.fromList t)) ∧
      BA.IsNormal (BA.neg (BA.fromList s)) ∧
      BA.IsNormal (BA.sub (BA.fromList s) (BA.fromList t)) ∧
      BA.IsNormal (BA.mul (BA.fromList s) (BA.fromList t)) := by
  refine ⟨BA.fromList_isNormal _, ?_, add_isNormal _ _, neg_isNormal _,
    sub_isNormal _ _, mul_isNormal _ _⟩
  rcases Bool.eq_false_or_eq_true (BA.eq (BA.fromList s) (BA.fromList t)) with
    h | h
  · exact Or.inl h
  · exact Or.inr h

/-- C5: `a + b` is `from` of the sequence whose entry at each `i` up to
`max(deg a, deg b)` is `a_i + b_i`, coefficients of the shorter operand above
its degree taken to be `zero(T)`; re-normalization makes `a + (-a) == zero()`
hold. -/
theorem claim_C5_add_correct {T : Type} [Ring T] [DecidableEq T]
    (s t : List T) :
    BA.add (BA.fromList s) (BA.fromList t) =
      BA.fromList
        ((List.range
            (max (BA.fromList s).deg (BA.fromList t).deg + 1)).map fun i =>
          (if i ≤ (BA.fromList s).deg then s.getD i 0 else 0) +
          (if i ≤ (BA.fromList t).deg then t.getD i 0 else 0)) ∧
      BA.eq (BA.add (BA.fromList s) (BA.neg (BA.fromList s))) BA.zero =
        true := by
  constructor
  · have has : (BA.fromList s).coeffs = s := BA.fromList_coeffs s
    have hbt : (BA.fromList t).coeffs = t := BA.fromList_coeffs t
    have han : BA.IsNormal (BA.fromList s) := BA.fromList_isNormal s
    have hbn : BA.IsNormal (BA.fromList t) := BA.fromList_isNormal t
    by_cases h : (BA.fromList s).deg ≥ (BA.fromList t).deg
    · rw [show BA.add (BA.fromList s) (BA.fromList t) =
          BA.add_pad_second (BA.fromList s) (BA.fromList t) by
        simp [BA.add, BA.compare_deg, h]]
      rw [BA.add_pad_second, Nat.max_eq_left h]
      congr 1
      apply map_range_congr
      intro i hi
      have h1 : (BA.fromList s).coeffs.getD i 0 =
          if i ≤ (BA.fromList s).deg then s.getD i 0 else 0 := by
        rw [has, if_pos (by omega)]
      have h2 : (BA.fromList t).coeffs.getD i 0 =
          if i ≤ (BA.fromList t).deg then t.getD i 0 else 0 := by
        by_cases hib : i ≤ (BA.fromList t).deg
        · rw [hbt, if_pos hib]
        · rw [if_neg hib]
          exact hbn.zero_above (j := i) (by omega)
      rw [h1, h2]
    · rw [show BA.add (BA.fromList s) (BA.fromList t) =
          BA.add_pad_second (BA.fromList t) (BA.fromList s) by
        simp [BA.add, BA.compare_deg, h]]
      rw [BA.add_pad_second, Nat.max_eq_right (by omega)]
      congr 1
      apply map_range_congr
      intro i hi
      have h1 : (BA.fromList s).coeffs.getD i 0 =
          if i ≤ (BA.fromList s).deg then s.getD i 0 else 0 := by
        by_cases hia : i ≤ (BA.fromList s).deg
        · rw [has, if_pos hia]
        · rw [if_neg hia]
          exact han.zero_above (j := i) (by omega)
      have h2 : (BA.fromList t).coeffs.getD i 0 =
          if i ≤ (BA.fromList t).deg then t.getD i 0 else 0 := by
        rw [hbt, if_pos (by omega)]
      rw [h1, h2, add_comm]
  · rw [eq_true_iff_toM (add_isNormal _ _) zero_isNormal
      (add_coeffs_ne _ _) zero_coeffs_ne]
    rw [toM_add (BA.fromList_isNormal s) (neg_isNormal _),
      toM_neg (BA.fromList_isNormal s), toM_zero]
    abel

/-- C6: the coefficient of `a * b` at each `k ≤ deg a + deg b` is the
convolution sum over `i ≤ k` of `a_i * b_(k-i)` in that factor order, indices
outside `[0, deg a]` resp. `[0, deg b]` contributing nothing; the result is
re-normalized by `from`, its backing storage holding exactly the
`deg a + deg b + 1` convolved entries. -/
theorem claim_C6_mul_convolution {T : Type} [Ring T] [DecidableEq T]
    (s t : List T) (k : Nat)
    (hk : k ≤ (BA.fromList s).deg + (BA.fromList t).deg) :
    (BA.mul (BA.fromList s) (BA.fromList t)).coeffs.getD k 0 =
      (∑ i in Finset.range (k + 1),
        if i ≤ (BA.fromList s).deg ∧ k - i ≤ (BA.fromList t).deg then
          s.getD i 0 * t.getD (k - i) 0
        else 0) ∧
      BA.IsNormal (BA.mul (BA.fromList s) (BA.fromList t)) ∧
      (BA.mul (BA.fromList s) (BA.fromList t)).coeffs.length =
        (BA.fromList s).deg + (BA.fromList t).deg + 1 := by
  refine ⟨?_, mul_isNormal _ _, ?_⟩
  · have has : (BA.fromList s).coeffs = s := BA.fromList_coeffs s
    have hbt : (BA.fromList t).coeffs = t := BA.fromList_coeffs t
    rw [mul_coeffs, BA.getD_map_range, if_pos (by omega), mul_entry_eq_sum]
    apply Finset.sum_congr rfl
    intro i hi
    by_cases hc : i ≤ (BA.fromList s).deg ∧ k - i ≤ (BA.fromList t).deg
    · rw [if_neg (by omega), if_pos hc, has, hbt]
    · rw [if_pos (by omega), if_neg hc]
  · rw [mul_coeffs]
    simp

/-- C6 witness: the convolution statement evaluated at `s = [1, 2]`,
`t = [3, 4]`, `k = 1` over `ℤ`. -/
theorem claim_C6_witness :
    1 ≤ (BA.fromList ([1, 2] : List ℤ)).deg + (BA.fromList ([3, 4] : List ℤ)).deg ∧
      ((BA.mul (BA.fromList ([1, 2] : List ℤ))
            (BA.fromList ([3, 4] : List ℤ))).coeffs.getD 1 0 =
        (∑ i in Finset.range (1 + 1),
          if i ≤ (BA.fromList ([1, 2] : List ℤ)).deg ∧
              1 - i ≤ (BA.fromList ([3, 4] : List ℤ)).deg then
            ([1, 2] : List ℤ).getD i 0 * ([3, 4] : List ℤ).getD (1 - i) 0
          else 0) ∧
        BA.IsNormal (BA.mul (BA.fromList ([1, 2] : List ℤ))
          (BA.fromList ([3, 4] : List ℤ))) ∧
        (BA.mul (BA.fromList ([1, 2] : List ℤ))
            (BA.fromList ([3, 4] : List ℤ))).coeffs.length =
          (BA.fromList ([1, 2] : List ℤ)).deg +
            (BA.fromList ([3, 4] : List ℤ)).deg + 1) :=
  ⟨by decide, claim_C6_mul_convolution [1, 2] [3, 4] 1 (by decide)⟩

/-- C7 counterexample: at `a = from([])` (the empty-backing zero
representation) and `b = one()` over the field `F2`, division succeeds with
quotient and remainder `from([0])`, yet `a == (a/b)*b + (a%b)` is false,
because the source's `eq` never equates the empty-backing polynomial with a
nonempty-backing zero.  So the claim as stated fails. -/
theorem claim_C7_counterexample :
    BA.is_zero (BA.one : BA.Polynomial F2) = false ∧
      IsUnit (BA.lc (BA.one : BA.Polynomial F2)) ∧
      BA.div (BA.fromList ([] : List F2)) BA.one = some (BA.fromList [0]) ∧
      BA.rem (BA.fromList ([] : List F2)) BA.one = some (BA.fromList [0]) ∧
      BA.eq (BA.fromList ([] : List F2))
        (BA.add (BA.mul (BA.fromList ([0] : List F2)) BA.one)
          (BA.fromList [0])) = false := by
  refine ⟨by decide, ?_, by decide, by decide, by decide⟩
  rw [show BA.lc (BA.one : BA.Polynomial F2) = 1 by decide]
  exact isUnit_one

/-- C7 (amended): for every polynomial `a` built from a nonempty coefficient
sequence (the empty-backing zero representation excluded) and every nonzero
`b` with invertible leading coefficient, division returns a quotient `q` and
remainder `r` with `a == q*b + r`, and `r` is zero or `deg r < deg b`. -/
theorem claim_C7_division_correct {T : Type} [Field T] [DecidableEq T]
    (a b : BA.Polynomial T) (ha : BA.IsNormal a) (hane : a.coeffs ≠ [])
    (hb : BA.IsNormal b) (hbz : BA.is_zero b = false)
    (hu : IsUnit (BA.lc b)) :
    ∃ q r, BA.div a b = some q ∧ BA.rem a b = some r ∧
      BA.eq a (BA.add (BA.mul q b) r) = true ∧
      (BA.is_zero r = true ∨ r.deg < b.deg) := by
  have hlcb : BA.lc b ≠ 0 := hu.ne_zero
  obtain ⟨q, r, hdm, heq, hdeg⟩ := divmod_spec ha hane hb hbz hlcb
  refine ⟨q, r, ?_, ?_, heq, hdeg⟩
  · rw [BA.div, hdm]
    rfl
  · rw [BA.rem, hdm]
    rfl

/-- C7 witness: the amended division statement at `a = from([1, 0, 1])`,
`b = from([1, 1])` over `F2`. -/
theorem claim_C7_witness :
    BA.IsNormal (BA.fromList ([1, 0, 1] : List F2)) ∧
      (BA.fromList ([1, 0, 1] : List F2)).coeffs ≠ [] ∧
      BA.IsNormal (BA.fromList ([1, 1] : List F2)) ∧
      BA.is_zero (BA.fromList ([1, 1] : List F2)) = false ∧
      IsUnit (BA.lc (BA.fromList ([1, 1] : List F2))) ∧
      (∃ q r,
        BA.div (BA.fromList ([1, 0, 1] : List F2)) (BA.fromList [1, 1]) =
          some q ∧
        BA.rem (BA.fromList ([1, 0, 1] : List F2)) (BA.fromList [1, 1]) =
          some r ∧
        BA.eq (BA.fromList ([1, 0, 1] : List F2))
          (BA.add (BA.mul q (BA.fromList [1, 1])) r) = true ∧
        (BA.is_zero r = true ∨ r.deg < (BA.fromList ([1, 1] : List F2)).deg)) :=
  ⟨by decide, by decide, by decide, by decide,
    by
      rw [show BA.lc (BA.fromList ([1, 1] : List F2)) = 1 by decide]
      exact isUnit_one,
    claim_C7_division_correct (BA.fromList [1, 0, 1]) (BA.fromList [1, 1])
      (by decide) (by decide) (by decide) (by decide)
      (by
        rw [show BA.lc (BA.fromList ([1, 1] : List F2)) = 1 by decide]
        exact isUnit_one)⟩

/-- C8: dividing by (any representation of) the zero polynomial never returns
a value: both the quotient and the remainder operation refuse to proceed. -/
theorem claim_C8_div_by_zero_fatal {T : Type} [Field T] [DecidableEq T]
    (a b : BA.Polynomial T) (hb : BA.is_zero b = true) :
    BA.div a b = none ∧ BA.rem a b = none := by
  rw [BA.div, BA.rem, BA.divmod, if_pos hb]
  exact ⟨rfl, rfl⟩

/-- C8 witness: dividing `from([1, 0, 1])` by `zero()` over `F2` returns no
value. -/
theorem claim_C8_witness :
    BA.is_zero (BA.zero : BA.Polynomial F2) = true ∧
      BA.div (BA.fromList ([1, 0, 1] : List F2)) BA.zero = none ∧
      BA.rem (BA.fromList ([1, 0, 1] : List F2)) BA.zero = none :=
  ⟨by decide,
    (claim_C8_div_by_zero_fatal (BA.fromList [1, 0, 1]) BA.zero (by decide)).1,
    (claim_C8_div_by_zero_fatal (BA.fromList [1, 0, 1]) BA.zero (by decide)).2⟩

/-- C9: the source's equality is reflexive, symmetric and transitive, on all
polynomial values, and `ne` is the logical negation of `eq`. -/
theorem claim_C9_eq_equivalence {T : Type} [DecidableEq T]
    (a b c : BA.Polynomial T) :
    BA.eq a a = true ∧
      (BA.eq a b = true → BA.eq b a = true) ∧
      (BA.eq a b = true → BA.eq b c = true → BA.eq a c = true) ∧
      (BA.ne a b = true ↔ ¬BA.eq a b = true) := by
  refine ⟨?_, ?_, ?_, ?_⟩
  · rw [BA.eq_true_iff]
    exact ⟨rfl, rfl⟩
  · intro h
    rw [BA.eq_true_iff] at h ⊢
    obtain ⟨h1, h2⟩ := h
    refine ⟨h1.symm, ?_⟩
    rw [← h1]
    exact h2.symm
  · intro h1 h2
    rw [BA.eq_true_iff] at h1 h2 ⊢
    obtain ⟨h1d, h1t⟩ := h1
    obtain ⟨h2d, h2t⟩ := h2
    refine ⟨h1d.trans h2d, ?_⟩
    rw [h1t, h1d]
    exact h2t
  · rw [BA.ne]
    cases BA.eq a b <;> simp

/-- C9 witness: symmetry of `eq`, through the theorem, at the concrete pair
`from([1, 2])`, `from([1, 2, 0])` over `ℤ`. -/
theorem claim_C9_witness :
    BA.eq (BA.fromList ([1, 2] : List ℤ)) (BA.fromList [1, 2, 0]) = true ∧
      BA.eq (BA.fromList ([1, 2, 0] : List ℤ)) (BA.fromList [1, 2]) = true :=
  ⟨by decide,
    (claim_C9_eq_equivalence (BA.fromList ([1, 2] : List ℤ))
      (BA.fromList [1, 2, 0]) (BA.fromList [1, 2])).2.1 (by decide)⟩

/-- C10: every polynomial produced by the public constructors satisfies the
degree-index invariant: either the backing vector is empty and the degree is
`0`, or the degree is a valid index into the backing vector; hence the
`deg + 1` entries equality inspects all exist. -/
theorem claim_C10_degree_invariant {T : Type} [Zero T] [DecidableEq T]
    (s : List T) :
    (((BA.fromList s).coeffs = [] ∧ (BA.fromList s).deg = 0) ∨
      (BA.fromList s).deg < (BA.fromList s).coeffs.length) ∧
      ((BA.new : BA.Polynomial T).coeffs = [] ∧
        (BA.new : BA.Polynomial T).deg = 0) ∧
      ((BA.defaultPoly : BA.Polynomial T).coeffs = [] ∧
        (BA.defaultPoly : BA.Polynomial T).deg = 0) ∧
      (s ≠ [] →
        ((BA.fromList s).coeffs.take ((BA.fromList s).deg + 1)).length =
          (BA.fromList s).deg + 1) := by
  refine ⟨?_, ⟨rfl, rfl⟩, ⟨rfl, rfl⟩, ?_⟩
  · by_cases h : s = []
    · subst h
      left
      rw [BA.fromList_nil]
      exact ⟨rfl, rfl⟩
    · right
      rw [BA.fromList_coeffs]
      exact BA.fromList_deg_lt h
  · intro h
    rw [List.length_take, BA.fromList_coeffs]
    have := BA.fromList_deg_lt h
    omega

/-- C10 witness: the invariant, through the theorem, at `s = [5, 0, 7]` over
`ℤ`, including the in-bounds inspection length for this nonempty input. -/
theorem claim_C10_witness :
    (((BA.fromList ([5, 0, 7] : List ℤ)).coeffs = [] ∧
        (BA.fromList ([5, 0, 7] : List ℤ)).deg = 0) ∨
      (BA.fromList ([5, 0, 7] : List ℤ)).deg <
        (BA.fromList ([5, 0, 7] : List ℤ)).coeffs.length) ∧
      ((BA.fromList ([5, 0, 7] : List ℤ)).coeffs.take
          ((BA.fromList ([5, 0, 7] : List ℤ)).deg + 1)).length =
        (BA.fromList ([5, 0, 7] : List ℤ)).deg + 1 :=
  ⟨(claim_C10_degree_invariant [5, 0, 7]).1,
    (claim_C10_degree_invariant [5, 0, 7]).2.2.2 (by decide)⟩
